import Mathlib

/-!
Verification of the Connect-4 Monte-Carlo engine
(`connect4_AMAF.py` / `connect4_RAVE.py`).

The board is a 6-row by 7-column grid.  Row 0 is the bottom row (the code
drops a piece into the first row index `i` with `board[i, col] == 0` and
tests legality of a column via `board[5, col] == 0`).  Cells hold `0`
(empty), `1` or `2` (the two players).  We embed the grid as a list of six
rows, each a list of seven integers, exactly mirroring the numpy array.
-/

namespace Connect4

abbrev Board := List (List Int)

/-- Read cell `(r, c)` of the board (row-major, row 0 at the bottom),
mirroring `board[r, c]`.  Out-of-range reads default to `0`; every board
manipulated by the program is a well-formed 6x7 grid. -/
def cell (b : Board) (r c : Nat) : Int :=
  (b.getD r []).getD c 0

/-- Write value `v` into cell `(r, c)`, mirroring `board[r, c] = v`. -/
def setCell (b : Board) (r c : Nat) (v : Int) : Board :=
  b.set r ((b.getD r []).set c v)

/-- A well-formed board: exactly 6 rows of 7 cells, as allocated by
`np.zeros(shape=(6, 7))`. -/
def boardWF (b : Board) : Prop :=
  b.length = 6 ∧ ∀ row ∈ b, row.length = 7

instance (b : Board) : Decidable (boardWF b) := by
  unfold boardWF; infer_instance

/-- The all-empty starting board `np.zeros(shape=(6, 7))`. -/
def emptyBoard : Board :=
  List.replicate 6 (List.replicate 7 0)

/-- `GameBoard.check_rows` (`connect4_AMAF.py`): first row window
`board[y, x..x+3]` of four equal non-zero marks, scanning `y` then `x`. -/
def checkRows (b : Board) : Option Int :=
  (List.range 6).findSome? fun y =>
    (List.range 4).findSome? fun x =>
      if cell b y x = cell b y (x + 1) ∧ cell b y (x + 1) = cell b y (x + 2) ∧
          cell b y (x + 2) = cell b y (x + 3) ∧ cell b y (x + 3) ≠ 0 then
        some (cell b y x)
      else none

/-- `GameBoard.check_cols`: first column window `board[y..y+3, x]` of four
equal non-zero marks, scanning `x` then `y`. -/
def checkCols (b : Board) : Option Int :=
  (List.range 7).findSome? fun x =>
    (List.range 3).findSome? fun y =>
      if cell b y x = cell b (y + 1) x ∧ cell b (y + 1) x = cell b (y + 2) x ∧
          cell b (y + 2) x = cell b (y + 3) x ∧ cell b (y + 3) x ≠ 0 then
        some (cell b y x)
      else none

/-- `GameBoard.check_diag`: ascending diagonals `board[y+k, x+k]` for
`y < 3, x < 4`, then descending diagonals `board[y+k, x-k]` for
`y < 3, 3 <= x < 7`, each requiring four equal non-zero marks. -/
def checkDiag (b : Board) : Option Int :=
  match (List.range 3).findSome? (fun y =>
    (List.range 4).findSome? fun x =>
      if cell b y x = cell b (y + 1) (x + 1) ∧
          cell b (y + 1) (x + 1) = cell b (y + 2) (x + 2) ∧
          cell b (y + 2) (x + 2) = cell b (y + 3) (x + 3) ∧
          cell b (y + 3) (x + 3) ≠ 0 then
        some (cell b y x)
      else none) with
  | some w => some w
  | none =>
    (List.range 3).findSome? fun y =>
      (List.range 4).findSome? fun x3 =>
        if cell b y (x3 + 3) = cell b (y + 1) (x3 + 2) ∧
            cell b (y + 1) (x3 + 2) = cell b (y + 2) (x3 + 1) ∧
            cell b (y + 2) (x3 + 1) = cell b (y + 3) x3 ∧
            cell b (y + 3) x3 ≠ 0 then
          some (cell b y (x3 + 3))
        else none

/-- `GameBoard.check_tie`: `np.all(board != 0)` — every cell occupied. -/
def checkTie (b : Board) : Bool :=
  (List.range 6).all fun y => (List.range 7).all fun x => cell b y x != 0

/-- `GameBoard.check_win` (`connect4_AMAF.py`): run the three win checks in
order, then the tie check; `(True, winner)`, `(True, None)` for a tie,
`(False, None)` otherwise. -/
def checkWin (b : Board) : Bool × Option Int :=
  match checkRows b with
  | some w => (true, some w)
  | none =>
    match checkCols b with
    | some w => (true, some w)
    | none =>
      match checkDiag b with
      | some w => (true, some w)
      | none => if checkTie b then (true, none) else (false, none)

/-- `AMAF.result`: winner from the three win checks, `None` if no line. -/
def result (b : Board) : Option Int :=
  match checkRows b with
  | some w => some w
  | none =>
    match checkCols b with
    | some w => some w
    | none => checkDiag b

/-- Shorthand: some win line exists on the board. -/
def hasWinner (b : Board) : Bool :=
  (result b).isSome

/-- `GameBoard.apply_move(column)`: numpy resolves the index
`column - 1`, with Python negative-index semantics (`-1` is the last
column); an index outside `-7..6` would raise `IndexError`, embedded as
`none`.  Otherwise the mark of the side to move goes into the lowest row
whose cell in that column is empty and the turn flips (`3 - turn`,
mirroring `switch_turn`); if the column has no empty cell the call returns
`False` and changes nothing.  Result: `some (success, board', turn')`. -/
def applyMove (b : Board) (turn : Int) (column : Int) : Option (Bool × Board × Int) :=
  let idx : Int := column - 1
  if idx < -7 ∨ 6 < idx then none
  else
    let c : Nat := (if idx < 0 then idx + 7 else idx).toNat
    match (List.range 6).find? (fun i => cell b i c == 0) with
    | some i => some (true, setCell b i c turn, 3 - turn)
    | none => some (false, b, turn)

/-- `AMAF.apply_move_to_board`: copy the board and drop `turn` into the
lowest empty cell of (0-indexed) column `col`; unchanged if the column is
full. -/
def applyMoveToBoard (b : Board) (col : Nat) (turn : Int) : Board :=
  match (List.range 6).find? (fun j => cell b j col == 0) with
  | some j => setCell b j col turn
  | none => b

/-- `AMAF.get_moves`: all successor boards, one per column whose top cell
`board[5, i]` is empty, in column order. -/
def getMoves (b : Board) (turn : Int) : List Board :=
  ((List.range 7).filter fun i => cell b 5 i == 0).map fun i =>
    applyMoveToBoard b i turn

/-- `AMAF.get_action`: first cell `(j, i)` (row-major scan) where the two
boards differ, or `None`. -/
def getAction (pb cb : Board) : Option (Nat × Nat) :=
  (List.range 6).findSome? fun j =>
    (List.range 7).findSome? fun i =>
      if cell pb j i ≠ cell cb j i then some (j, i) else none

/-- Python truthiness of the `Optional[int]` produced by the win checks:
`None` is falsy, a non-zero winner is truthy (winners are always 1 or 2). -/
def pyTruthy : Option Int → Bool
  | none => false
  | some w => w != 0

/-- `Node.check_terminal`:
`any(check(board) for check in [rows, cols, diag]) or check_tie(board)`. -/
def checkTerminal (b : Board) : Bool :=
  pyTruthy (checkRows b) || pyTruthy (checkCols b) || pyTruthy (checkDiag b) ||
    checkTie b

/-- Python semantics of the rollout guard `terminal != 0` where `terminal`
is the `Optional[int]` returned by `result`: `None != 0` is `True` in
Python, and a winner (1 or 2) is also `!= 0`, so the guard always holds. -/
def pyNeZero : Option Int → Bool
  | none => true
  | some w => w != 0

/-!
## Search-tree nodes

A `Node` of either engine, embedded as a pure tree.  The Python object
graph has parent pointers; here a node in the tree is addressed by the
list of child indices leading to it from the root (a *path*), and the
leaf-to-root recursion of `backpropagate` becomes recursion along that
path.  The field `producedBy` is the Python field `node.turn`: the mover
that produced this node, not the mover to move next (`Node.__init__`
stores `3 - turn`).  The RAVE-only fields `rave_q` / `rave_n` play no role
in any claim and are omitted from the embedding. -/

inductive MNode : Type where
  | mk (q : Int) (n : Nat) (board : Board) (producedBy : Int)
      (children : List MNode) (terminal : Bool) (expanded : Bool) : MNode

instance : Inhabited MNode :=
  ⟨.mk 0 0 [] 0 [] false false⟩

def MNode.q : MNode → Int
  | .mk q _ _ _ _ _ _ => q

def MNode.n : MNode → Nat
  | .mk _ n _ _ _ _ _ => n

def MNode.board : MNode → Board
  | .mk _ _ b _ _ _ _ => b

def MNode.producedBy : MNode → Int
  | .mk _ _ _ t _ _ _ => t

def MNode.children : MNode → List MNode
  | .mk _ _ _ _ cs _ _ => cs

def MNode.terminal : MNode → Bool
  | .mk _ _ _ _ _ term _ => term

def MNode.expanded : MNode → Bool
  | .mk _ _ _ _ _ _ exp => exp

def MNode.appendChild : MNode → MNode → MNode
  | .mk q n b t cs term exp, c => .mk q n b t (cs ++ [c]) term exp

def MNode.setExpandedTrue : MNode → MNode
  | .mk q n b t cs term _ => .mk q n b t cs term true

def MNode.setChild : MNode → Nat → MNode → MNode
  | .mk q n b t cs term exp, i, c => .mk q n b t (cs.set i c) term exp

/-- `Node.__init__(parent, board, turn)` of `connect4_AMAF.py`: fresh
statistics, `self.turn = 3 - turn`, no children, terminal computed from
the board, `expanded = False`. -/
def mkNode (board : Board) (turn : Int) : MNode :=
  .mk 0 0 board (3 - turn) [] (checkTerminal board) false

/-- `Node.__init__` of `connect4_RAVE.py`: identical except the turn flip
is written `if turn == 1 then 2 else 1` (and the node also carries RAVE
statistics, unused by the claims).  Its `check_terminal` calls the RAVE
file's count-based win checks, which decide exactly the same predicate as
the AMAF file's chained comparisons, so `checkTerminal` is shared. -/
def mkNodeR (board : Board) (turn : Int) : MNode :=
  .mk 0 0 board (if turn == 1 then 2 else 1) [] (checkTerminal board) false

/-- `Node.add_child` (`connect4_AMAF.py`): if already `expanded`, no-op.
Otherwise scan columns left to right; in the first column whose top cell
is empty, take the lowest empty cell `(j, i)`, write `self.turn` into it
(the parent's own `producedBy` — see claim C2), and append
`Node(self, tmp, self.turn)` unless an existing child already has that
board (in which case `break` moves on to the next column).  If no column
yields a new board, set `expanded`. -/
def addChild (node : MNode) : MNode :=
  if node.expanded then node
  else
    match (List.range 7).findSome? (fun i =>
      if cell node.board 5 i == 0 then
        match (List.range 6).find? (fun j => cell node.board j i == 0) with
        | some j =>
          let tmp := setCell node.board j i node.producedBy
          if node.children.any (fun ch => ch.board == tmp) then none
          else some tmp
        | none => none
      else none) with
    | some tmp => node.appendChild (mkNode tmp node.producedBy)
    | none => node.setExpandedTrue

/-- `Node.add_child` (`connect4_RAVE.py`): same scan, but the mark written
into the new cell is the *opposite* of `self.turn`
(`if self.turn == 1: tmp[j, i] = 2 ... else: tmp[j, i] = 1`), and the
child is built with `Node(self, tmp, 1)` resp. `Node(self, tmp, 2)` so
that its `turn` field equals the mark.  The duplicate check
`compare_children` is skipped when there are no children yet, which
`List.any` on `[]` reproduces. -/
def addChildR (node : MNode) : MNode :=
  if node.expanded then node
  else
    let mark : Int := if node.producedBy == 1 then 2 else 1
    match (List.range 7).findSome? (fun i =>
      if cell node.board 5 i == 0 then
        match (List.range 6).find? (fun j => cell node.board j i == 0) with
        | some j =>
          let tmp := setCell node.board j i mark
          if node.children.any (fun ch => ch.board == tmp) then none
          else some tmp
        | none => none
      else none) with
    | some tmp => node.appendChild (mkNodeR tmp node.producedBy)
    | none => node.setExpandedTrue

/-- `AMAF.fully_expanded`: child count equals `list(board[5]).count(0)`
(the number of currently legal columns) and every child has a visit. -/
def fullyExpanded (node : MNode) : Bool :=
  if node.children.length == (node.board.getD 5 []).count 0 then
    node.children.all fun c => decide (0 < c.n)
  else false

/-- `AMAF.pick_unvisited`: index of the first child with `n == 0`. -/
def pickUnvisited (children : List MNode) : Option Nat :=
  (List.range children.length).find? fun i => (children.getD i default).n == 0

/-- `AMAF.best_child` is `max(children, key=n, default=None)`; Python
`max` keeps the first maximum, replacing only on strictly greater keys. -/
def bestChildAux (best : MNode) : List MNode → MNode
  | [] => best
  | c :: cs => bestChildAux (if best.n < c.n then c else best) cs

def bestChild : List MNode → Option MNode
  | [] => none
  | c :: cs => some (bestChildAux c cs)

/-- The tail of `AMAF.compute_move`: take the most-visited root child;
scan `(j, i)` row-major for the first cell where its board differs from
the root's and return it; `(-1, -1)` if there is no child or no
difference. -/
def extractMove (node : MNode) : Int × Int :=
  match bestChild node.children with
  | none => (-1, -1)
  | some sel =>
    match (List.range 6).findSome? (fun j =>
      (List.range 7).findSome? fun i =>
        if cell sel.board j i ≠ cell node.board j i then
          some ((j : Int), (i : Int))
        else none) with
    | some p => p
    | none => (-1, -1)

/-!
## Rollout

`AMAF.rollout`: starting from the leaf's board and `turn` field, alternate
`turn = 3 - turn`, enumerate `get_moves`, pick one (the random choice is
abstracted by `choice : Nat → Nat`, reduced modulo the number of moves,
covering every behaviour of `random.choice`), record the changed cell,
and test `if terminal != 0: return`.  Because `result` returns `None`
(not `0`) when nobody has won, this guard is true in Python for *every*
outcome, so each pass through the loop body returns; the `while` header
`not node.terminal` never gets re-checked with a different value.  The
fuel argument bounds the loop; any fuel ≥ 1 yields the same result. -/

def rolloutLoop (choice : Nat → Nat) : Nat → Nat → Board → Int →
    List (Nat × Nat) → Option Int × List (Nat × Nat)
  | 0, _, board, _, actions => (result board, actions)
  | fuel + 1, ply, board, turn, actions =>
    let turn' := 3 - turn
    let moves := getMoves board turn'
    if moves.isEmpty then (result board, actions)
    else
      let nextBoard := moves.getD (choice ply % moves.length) board
      let actions' :=
        match getAction board nextBoard with
        | some a => actions ++ [a]
        | none => actions
      let terminal := result nextBoard
      if pyNeZero terminal then (terminal, actions')
      else rolloutLoop choice fuel (ply + 1) nextBoard turn' actions'

def rollout (node : MNode) (choice : Nat → Nat) : Option Int × List (Nat × Nat) :=
  if node.terminal then (result node.board, [])
  else rolloutLoop choice 42 0 node.board node.producedBy []

/-!
## Backpropagation (with the global AMAF table)

`AMAF.backpropagate` recurses from the leaf through the parent pointers:
at each node it bumps `q` (iff `node.turn == winner`; `None == int` is
`False` in Python) and `n`, folds every recorded action into the global
`amaf_stats` dictionary, and stops at the root (`parent is None`).  Here
the recursion runs along the root-to-leaf path; the base case is the leaf
and the table updates happen leaf-first, exactly as in the source. -/

abbrev AmafTable := List ((Nat × Nat) × (Int × Nat))

def tableGet (t : AmafTable) (a : Nat × Nat) : Int × Nat :=
  ((t.find? fun e => e.1 == a).map (·.2)).getD (0, 0)

def tableSet : AmafTable → Nat × Nat → Int × Nat → AmafTable
  | [], a, v => [(a, v)]
  | e :: rest, a, v => if e.1 == a then (a, v) :: rest else e :: tableSet rest a v

/-- The `for action in actions` body of `backpropagate` at one node. -/
def amafUpdate (t : AmafTable) (producedBy : Int) (winner : Option Int)
    (actions : List (Nat × Nat)) : AmafTable :=
  actions.foldl (fun t a =>
    let qn := tableGet t a
    tableSet t a (qn.1 + (if winner == some producedBy then 1 else 0), qn.2 + 1)) t

/-- The node-local part of one `backpropagate` frame: `q += 1` iff the
node's mover equals the winner, `n += 1`. -/
def MNode.bpUpdate : MNode → Option Int → MNode
  | .mk q n b t cs term exp, winner =>
    .mk (q + if winner == some t then 1 else 0) (n + 1) b t cs term exp

/-- `AMAF.backpropagate` along the root-to-leaf path `p` (the Python
recursion terminates at the root, the node with no parent; here the root
is the outermost frame).  An index falling outside the children list
leaves that list unchanged (`List.set` out of range), which never happens
on the paths the search produces. -/
def backprop : MNode → List Nat → Option Int → List (Nat × Nat) → AmafTable →
    MNode × AmafTable
  | node, [], winner, actions, table =>
    (node.bpUpdate winner, amafUpdate table node.producedBy winner actions)
  | node, i :: p, winner, actions, table =>
    let sub := backprop (node.children.getD i default) p winner actions table
    ((node.setChild i sub.1).bpUpdate winner,
      amafUpdate sub.2 node.producedBy winner actions)

/-!
## Selection

`AMAF.select` walks down while the current node is fully expanded,
stepping to the child chosen by `select_amaf` (a floating-point argmax of
UCT + AMAF scores).  The embedding abstracts that argmax as
`chooser : MNode → Option Nat`: `some i` with `i` a valid child index
models `select_amaf` returning that child, and `none` (or an out-of-range
index, which `select_amaf` cannot produce) models the `tmp == node`
break.  Every theorem below holds for every chooser, hence for the real
scoring function.  After the walk: a terminal node is returned as the
leaf (path `[]` relative to it); otherwise `add_child` runs, and the
first unvisited child — or the node itself when it has no children — is
the leaf.  `select` returns the updated tree and the root-relative path
to the leaf, `none` when `pick_unvisited` finds nothing (Python returns
`None`) or the fuel is exhausted. -/

def selectLeafStep (node : MNode) : MNode × Option (List Nat) :=
  if node.terminal then (node, some [])
  else
    let node' := addChild node
    if node'.children.isEmpty then (node', some [])
    else
      match pickUnvisited node'.children with
      | some j => (node', some [j])
      | none => (node', none)

def select (ch : MNode → Option Nat) : Nat → MNode → MNode × Option (List Nat)
  | 0, node => (node, none)
  | fuel + 1, node =>
    if fullyExpanded node then
      match ch node with
      | some i =>
        if i < node.children.length then
          let sub := select ch fuel (node.children.getD i default)
          (node.setChild i sub.1, sub.2.map (i :: ·))
        else selectLeafStep node
      | none => selectLeafStep node
    else selectLeafStep node

/-- Read the node at a root-relative path. -/
def getNode : MNode → List Nat → MNode
  | node, [] => node
  | node, i :: p => getNode (node.children.getD i default) p

/-- Every index of the path stays inside the children lists. -/
def validPath : MNode → List Nat → Bool
  | _, [] => true
  | node, i :: p =>
    decide (i < node.children.length) && validPath (node.children.getD i default) p

/-- Apply `f` to the node at path `p`, rebuilding the tree. -/
def updateAt : MNode → List Nat → (MNode → MNode) → MNode
  | node, [], f => f node
  | node, i :: p, f => node.setChild i (updateAt (node.children.getD i default) p f)

/-!
## The compute loop

One iteration of `AMAF.compute_move`: select (which also expands), roll
out from the leaf, backpropagate.  The wall-clock budget is replaced by an
iteration count `k`; `oracles k` supplies the rollout randomness of
iteration `k`.  The Boolean records whether every iteration completed
(`select` never returned `None`); on `False` the Python code would return
`(-1, -1)` from inside the loop. -/

def mctsIter (ch : MNode → Option Nat) (oracle : Nat → Nat) (fuel : Nat) :
    MNode × AmafTable → (MNode × AmafTable) × Bool :=
  fun st =>
    match select ch fuel st.1 with
    | (tree, none) => ((tree, st.2), false)
    | (tree, some p) =>
      (backprop tree p (rollout (getNode tree p) oracle).1
        (rollout (getNode tree p) oracle).2 st.2, true)

def mctsLoop (ch : MNode → Option Nat) (oracles : Nat → Nat → Nat) (fuel : Nat) :
    Nat → MNode × AmafTable → (MNode × AmafTable) × Bool
  | 0, st => (st, true)
  | k + 1, st =>
    match mctsIter ch (oracles k) fuel st with
    | (st', true) => mctsLoop ch oracles fuel k st'
    | (st', false) => (st', false)

/-!
## Instrumentation and invariants

`scoredPairs` records every `(parent, child)` pair whose UCT(+AMAF) score
`select_amaf` evaluates during the walk `select` performs: at each node
that passes the `fully_expanded` guard the scoring loop visits all of its
children, and the walk then descends into whichever child the chooser
picks.  `goodCountsB` is the visit-count invariant the search maintains
(a node has at least as many visits as all its children together), and
`Reach` are the trees obtainable from a fresh root by the two mutating
operations of the engine (expansion somewhere, backpropagation along
some path) — a superset of the states `compute_move` actually creates. -/

def scoredPairs (ch : MNode → Option Nat) : Nat → MNode → List (MNode × MNode)
  | 0, _ => []
  | fuel + 1, node =>
    if fullyExpanded node then
      (node.children.map fun c => (node, c)) ++
        (match ch node with
         | some i =>
           if i < node.children.length then
             scoredPairs ch fuel (node.children.getD i default)
           else []
         | none => [])
    else []

mutual

def goodCountsB : MNode → Bool
  | .mk _ n _ _ cs _ _ => decide ((cs.map MNode.n).sum ≤ n) && goodCountsL cs

def goodCountsL : List MNode → Bool
  | [] => true
  | c :: cs => goodCountsB c && goodCountsL cs

end

inductive Reach : MNode → Prop where
  | init (b : Board) (t : Int) : Reach (mkNode b t)
  | expand (m : MNode) (p : List Nat) : Reach m → Reach (updateAt m p addChild)
  | bp (m : MNode) (p : List Nat) (w : Option Int) (acts : List (Nat × Nat))
      (tbl : AmafTable) : Reach m → Reach (backprop m p w acts tbl).1

/-!
## Concrete boards used in counterexamples and witnesses -/

/-- A board whose column 0 has a filled top cell `(5, 0)` but empty cells
below it.  Not reachable by gravity drops, but a legal value of the board
data type. -/
def holeBoard : Board :=
  [[0, 0, 0, 0, 0, 0, 0], [0, 0, 0, 0, 0, 0, 0], [0, 0, 0, 0, 0, 0, 0],
   [0, 0, 0, 0, 0, 0, 0], [0, 0, 0, 0, 0, 0, 0], [1, 0, 0, 0, 0, 0, 0]]

/-- A board whose column 0 is completely full (and nothing else). -/
def fullColBoard : Board :=
  [[1, 0, 0, 0, 0, 0, 0], [2, 0, 0, 0, 0, 0, 0], [1, 0, 0, 0, 0, 0, 0],
   [2, 0, 0, 0, 0, 0, 0], [1, 0, 0, 0, 0, 0, 0], [2, 0, 0, 0, 0, 0, 0]]

/-- A completely full board with no four-in-a-line anywhere (a genuine
tie position). -/
def tieBoard : Board :=
  [[1, 2, 1, 2, 1, 2, 1], [1, 2, 1, 2, 1, 2, 1], [2, 1, 2, 1, 2, 1, 2],
   [2, 1, 2, 1, 2, 1, 2], [1, 2, 1, 2, 1, 2, 1], [1, 2, 1, 2, 1, 2, 1]]

/-- A completely full board that contains (many) winning lines. -/
def onesBoard : Board :=
  List.replicate 6 (List.replicate 7 1)

/-- A board whose top row is filled in columns 0–5, leaving column 6 as
the single legal column; no line of four exists. -/
def oneColBoard : Board :=
  [[0, 0, 0, 0, 0, 0, 0], [0, 0, 0, 0, 0, 0, 0], [0, 0, 0, 0, 0, 0, 0],
   [0, 0, 0, 0, 0, 0, 0], [0, 0, 0, 0, 0, 0, 0], [1, 2, 1, 2, 1, 2, 0]]

/-- A small reachable tree: root for `oneColBoard`, one expansion, one
backpropagation through the single child.  The root is then fully
expanded (one legal column, one visited child). -/
def sampleTree : MNode :=
  (backprop (updateAt (mkNode oneColBoard 1) [] addChild) [0] none [] []).1

/-!
## List helper lemmas -/

lemma findSome?_eq_none_of {α β : Type} (f : α → Option β) (l : List α)
    (h : ∀ x ∈ l, f x = none) : l.findSome? f = none := by
  induction l with
  | nil => rfl
  | cons a t ih =>
    simp only [List.findSome?_cons, h a (by simp)]
    exact ih fun x hx => h x (by simp [hx])

lemma findSome?_range'_first {β : Type} (f : Nat → Option β) (n : Nat) :
    ∀ (s j : Nat) (v : β), s ≤ j → j < s + n → f j = some v →
    (∀ k, s ≤ k → k < j → f k = none) → (List.range' s n).findSome? f = some v := by
  induction n with
  | zero => intro s j v h1 h2; omega
  | succ n ih =>
    intro s j v h1 h2 hj hlt
    rw [List.range'_succ]
    rcases Nat.eq_or_lt_of_le h1 with rfl | hsj
    · simp [List.findSome?_cons, hj]
    · have hs : f s = none := hlt s le_rfl hsj
      simp only [List.findSome?_cons, hs]
      exact ih (s + 1) j v hsj (by omega) hj fun k hk1 hk2 => hlt k (by omega) hk2

lemma findSome?_range_first {β : Type} (f : Nat → Option β) (n j : Nat) (v : β)
    (h2 : j < n) (hj : f j = some v) (hlt : ∀ k, k < j → f k = none) :
    (List.range n).findSome? f = some v := by
  rw [List.range_eq_range' n]
  exact findSome?_range'_first f n 0 j v (Nat.zero_le j) (by omega) hj
    fun k _ hk2 => hlt k hk2

lemma exists_of_findSome?_range' {β : Type} (f : Nat → Option β) (n : Nat) :
    ∀ (s : Nat) (v : β), (List.range' s n).findSome? f = some v →
    ∃ j, s ≤ j ∧ j < s + n ∧ f j = some v := by
  induction n with
  | zero => intro s v h; simp [List.findSome?] at h
  | succ n ih =>
    intro s v h
    rw [List.range'_succ] at h
    simp only [List.findSome?_cons] at h
    cases hs : f s with
    | some w => rw [hs] at h; exact ⟨s, le_rfl, by omega, hs.trans h⟩
    | none =>
      rw [hs] at h
      obtain ⟨j, hj1, hj2, hj3⟩ := ih (s + 1) v h
      exact ⟨j, by omega, by omega, hj3⟩

lemma exists_of_findSome?_range {β : Type} (f : Nat → Option β) (n : Nat) (v : β)
    (h : (List.range n).findSome? f = some v) : ∃ j, j < n ∧ f j = some v := by
  rw [List.range_eq_range' n] at h
  obtain ⟨j, _, hj2, hj3⟩ := exists_of_findSome?_range' f n 0 v h
  exact ⟨j, by omega, hj3⟩

lemma find?_range'_first (p : Nat → Bool) (n : Nat) :
    ∀ (s j : Nat), s ≤ j → j < s + n → p j = true →
    (∀ k, s ≤ k → k < j → p k = false) → (List.range' s n).find? p = some j := by
  induction n with
  | zero => intro s j h1 h2; omega
  | succ n ih =>
    intro s j h1 h2 hj hlt
    rw [List.range'_succ]
    rcases Nat.eq_or_lt_of_le h1 with rfl | hsj
    · simp [List.find?_cons, hj]
    · have hs : p s = false := hlt s le_rfl hsj
      simp only [List.find?_cons, hs]
      exact ih (s + 1) j hsj (by omega) hj fun k hk1 hk2 => hlt k (by omega) hk2

lemma find?_range_first (p : Nat → Bool) (n j : Nat) (h2 : j < n) (hj : p j = true)
    (hlt : ∀ k, k < j → p k = false) : (List.range n).find? p = some j := by
  rw [List.range_eq_range' n]
  exact find?_range'_first p n 0 j (Nat.zero_le j) (by omega) hj fun k _ hk2 => hlt k hk2

lemma getD_append_left {α : Type} (l l' : List α) (i : Nat) (d : α)
    (h : i < l.length) : (l ++ l').getD i d = l.getD i d := by
  simp [List.getD_eq_getElem?_getD, List.getElem?_append, h]

lemma getD_set_self {α : Type} (l : List α) (i : Nat) (x d : α) (h : i < l.length) :
    (l.set i x).getD i d = x := by
  simp [List.getD_eq_getElem?_getD, List.getElem?_set, h]

lemma getD_set_ne {α : Type} (l : List α) (i j : Nat) (x d : α) (h : i ≠ j) :
    (l.set i x).getD j d = l.getD j d := by
  simp [List.getD_eq_getElem?_getD, List.getElem?_set, h]

lemma set_getD_self {α : Type} (l : List α) (i : Nat) (d : α) :
    l.set i (l.getD i d) = l := by
  induction l generalizing i with
  | nil => rfl
  | cons a t ih =>
    cases i with
    | zero => simp [List.getD]
    | succ i =>
      simp only [List.getD_eq_getElem?_getD] at ih ⊢
      simp [List.set, ih]

lemma getD_map_of_lt {α β : Type} [Inhabited α] [Inhabited β] (l : List α) (f : α → β)
    (k : Nat) (hk : k < l.length) : (l.map f).getD k default = f (l.getD k default) := by
  simp [List.getD_eq_getElem?_getD, List.getElem?_map, List.getElem?_eq_getElem hk]

lemma sum_map_set {α : Type} [Inhabited α] (f : α → Nat) (l : List α) :
    ∀ (i : Nat) (x : α), i < l.length →
    ((l.set i x).map f).sum + f (l.getD i default) = (l.map f).sum + f x := by
  induction l with
  | nil => intro i x h; simp at h
  | cons a t ih =>
    intro i x h
    cases i with
    | zero => simp [List.getD]; omega
    | succ i =>
      have := ih i x (by simpa using h)
      simp only [List.set, List.map_cons, List.sum_cons, List.getD_cons_succ]
      omega

/-- On a well-formed board, `setCell` changes exactly the addressed cell. -/
lemma cell_setCell (b : Board) (v : Int) (r c : Nat) (hb : boardWF b)
    (hr : r < 6) (hc : c < 7) (r' c' : Nat) :
    cell (setCell b r c v) r' c' = if r' = r ∧ c' = c then v else cell b r' c' := by
  obtain ⟨hlen, hrow⟩ := hb
  have hrb : r < b.length := by omega
  have hrowlen : (b.getD r []).length = 7 := by
    rw [List.getD_eq_getElem b [] hrb]
    exact hrow _ (List.getElem_mem hrb)
  unfold cell setCell
  by_cases h1 : r' = r
  · subst h1
    rw [getD_set_self b r' _ [] hrb]
    by_cases h2 : c' = c
    · subst h2
      rw [getD_set_self _ c' v 0 (by omega)]
      simp
    · rw [getD_set_ne _ c c' v 0 fun h => h2 h.symm]
      simp [h2]
  · rw [getD_set_ne b r r' _ [] fun h => h1 h.symm]
    simp [h1]

/-!
## Lemmas about `applyMove` -/

/-- For an in-range 1-based column `c + 1`, `apply_move` reduces to the
scan for the lowest empty cell of 0-indexed column `c`. -/
lemma applyMove_eval (b : Board) (turn : Int) (c : Nat) (hc : c < 7) :
    applyMove b turn ((c : Int) + 1) =
      match (List.range 6).find? (fun i => cell b i c == 0) with
      | some i => some (true, setCell b i c turn, 3 - turn)
      | none => some (false, b, turn) := by
  have hidx : ((c : Int) + 1) - 1 = (c : Int) := by ring
  have hc6 : (c : Int) ≤ 6 := by exact_mod_cast Nat.lt_succ_iff.mp hc
  simp only [applyMove, hidx]
  rw [if_neg (by omega)]
  rw [if_neg (by omega)]
  rw [Int.toNat_natCast]

lemma dropFind_none (b : Board) (c : Nat) (h : ∀ r, r < 6 → cell b r c ≠ 0) :
    (List.range 6).find? (fun i => cell b i c == 0) = none := by
  refine List.find?_eq_none.mpr fun x hx => ?_
  simp only [List.mem_range] at hx
  simp [h x hx]

lemma dropFind_some (b : Board) (c r : Nat) (hr : r < 6) (h0 : cell b r c = 0)
    (hlt : ∀ r', r' < r → cell b r' c ≠ 0) :
    (List.range 6).find? (fun i => cell b i c == 0) = some r := by
  refine find?_range_first _ 6 r hr (by simp [h0]) fun k hk => ?_
  simp [hlt k hk]

/-!
## Accessor lemmas for node updates -/

@[simp] lemma appendChild_children (node c : MNode) :
    (node.appendChild c).children = node.children ++ [c] := by
  cases node; rfl

@[simp] lemma appendChild_n (node c : MNode) : (node.appendChild c).n = node.n := by
  cases node; rfl

@[simp] lemma appendChild_board (node c : MNode) :
    (node.appendChild c).board = node.board := by
  cases node; rfl

@[simp] lemma appendChild_expanded (node c : MNode) :
    (node.appendChild c).expanded = node.expanded := by
  cases node; rfl

@[simp] lemma setExpandedTrue_children (node : MNode) :
    node.setExpandedTrue.children = node.children := by
  cases node; rfl

@[simp] lemma setExpandedTrue_n (node : MNode) : node.setExpandedTrue.n = node.n := by
  cases node; rfl

@[simp] lemma setExpandedTrue_board (node : MNode) :
    node.setExpandedTrue.board = node.board := by
  cases node; rfl

@[simp] lemma setExpandedTrue_expanded (node : MNode) :
    node.setExpandedTrue.expanded = true := by
  cases node; rfl

@[simp] lemma setChild_children (node c : MNode) (i : Nat) :
    (node.setChild i c).children = node.children.set i c := by
  cases node; rfl

@[simp] lemma setChild_n (node c : MNode) (i : Nat) :
    (node.setChild i c).n = node.n := by
  cases node; rfl

@[simp] lemma setChild_board (node c : MNode) (i : Nat) :
    (node.setChild i c).board = node.board := by
  cases node; rfl

@[simp] lemma bpUpdate_n (node : MNode) (w : Option Int) :
    (node.bpUpdate w).n = node.n + 1 := by
  cases node; rfl

@[simp] lemma bpUpdate_children (node : MNode) (w : Option Int) :
    (node.bpUpdate w).children = node.children := by
  cases node; rfl

@[simp] lemma bpUpdate_board (node : MNode) (w : Option Int) :
    (node.bpUpdate w).board = node.board := by
  cases node; rfl

@[simp] lemma mkNode_n (b : Board) (t : Int) : (mkNode b t).n = 0 := rfl

@[simp] lemma mkNode_children (b : Board) (t : Int) : (mkNode b t).children = [] := rfl

@[simp] lemma mkNode_board (b : Board) (t : Int) : (mkNode b t).board = b := rfl

lemma setChild_getD_self (node c : MNode) (i : Nat) (h : i < node.children.length) :
    node.setChild i (node.children.getD i default) = node := by
  cases node
  simp only [MNode.setChild, MNode.children, set_getD_self]

/-!
## The first-maximum property of `best_child` -/

lemma bestChildAux_spec : ∀ (cs : List MNode) (best : MNode),
    best.n ≤ (bestChildAux best cs).n ∧
    (∀ j, j < cs.length → (cs.getD j default).n ≤ (bestChildAux best cs).n) ∧
    (bestChildAux best cs = best ∨
      ∃ k, k < cs.length ∧ bestChildAux best cs = cs.getD k default ∧
        best.n < (bestChildAux best cs).n ∧
        ∀ j, j < k → (cs.getD j default).n < (bestChildAux best cs).n) := by
  intro cs
  induction cs with
  | nil =>
    intro best
    exact ⟨le_rfl, fun j hj => by simp at hj, Or.inl rfl⟩
  | cons c cs ih =>
    intro best
    rw [show bestChildAux best (c :: cs) =
      bestChildAux (if best.n < c.n then c else best) cs from rfl]
    obtain ⟨ih1, ih2, ih3⟩ := ih (if best.n < c.n then c else best)
    have hb : best.n ≤ (if best.n < c.n then c else best).n := by
      by_cases h : best.n < c.n <;> simp [h] <;> omega
    have hc : c.n ≤ (if best.n < c.n then c else best).n := by
      by_cases h : best.n < c.n <;> simp [h] <;> omega
    refine ⟨le_trans hb ih1, ?_, ?_⟩
    · intro j hj
      cases j with
      | zero => simpa using le_trans hc ih1
      | succ j => simpa using ih2 j (by simpa using hj)
    · rcases ih3 with heq | ⟨k, hk, hkeq, hklt, hkstrict⟩
      · by_cases h : best.n < c.n
        · refine Or.inr ⟨0, by simp, ?_, ?_, fun j hj => by omega⟩
          · simpa [h] using heq
          · rw [heq]; simpa [h] using h
        · left; simpa [h] using heq
      · refine Or.inr ⟨k + 1, by simpa using hk, by simpa using hkeq,
          lt_of_le_of_lt hb hklt, ?_⟩
        intro j hj
        cases j with
        | zero => simpa using lt_of_le_of_lt hc hklt
        | succ j => simpa using hkstrict j (by omega)

/-!
## Claim theorems -/

/-- Claim C1 (the code violates it): from a non-terminal leaf, `rollout`
is supposed to keep playing random plies until a win or a full board.
In the source, `result` returns `None` when nobody has won, and the loop
guard `if terminal != 0: return terminal, actions` is then `None != 0`,
which is `True` in Python — so the rollout returns after its very first
ply no matter what.  From the empty board (leaf not terminal), with any
choice of move (index 0 shown), the rollout records exactly one action
and reports `None` (a tie) although the resulting position is not
terminal and still has legal moves. -/
theorem rollout_one_ply_bug :
    (mkNode emptyBoard 1).terminal = false ∧
    rollout (mkNode emptyBoard 1) (fun _ => 0) = (none, [(0, 0)]) ∧
    checkTerminal (applyMoveToBoard emptyBoard 0 1) = false ∧
    getMoves (applyMoveToBoard emptyBoard 0 1) 2 ≠ [] := by
  refine ⟨by decide, by decide, by decide, by decide⟩

/-- Claim C2 (the AMAF code violates it): for the AMAF root built from
the empty board with `turn = 1` (so `producedBy = 2`), `add_child` writes
the *parent's* `turn` (2) into the changed cell but records the child's
`turn` as 1 — the cell's mark and the child's recorded mover disagree.
The RAVE `add_child` at the same position writes 1 and records 1:
mark and recorded mover agree there, as the claim states. -/
theorem amaf_addChild_mover_mismatch :
    (mkNode emptyBoard 1).producedBy = 2 ∧
    ((addChild (mkNode emptyBoard 1)).children.getD 0 default).board =
      setCell emptyBoard 0 0 2 ∧
    cell ((addChild (mkNode emptyBoard 1)).children.getD 0 default).board 0 0 = 2 ∧
    ((addChild (mkNode emptyBoard 1)).children.getD 0 default).producedBy = 1 ∧
    (mkNodeR emptyBoard 1).producedBy = 2 ∧
    cell ((addChildR (mkNodeR emptyBoard 1)).children.getD 0 default).board 0 0 = 1 ∧
    ((addChildR (mkNodeR emptyBoard 1)).children.getD 0 default).producedBy = 1 := by
  refine ⟨by decide, by decide, by decide, by decide, by decide, by decide, by decide⟩

/-- Claim C3, counterexample: on a board whose column 0 has a filled top
cell `(5, 0)` but an empty cell below, `apply_move` does *not* fail — it
fills the lowest empty cell and switches the turn, mutating the board. -/
theorem applyMove_top_nonempty_cex :
    cell holeBoard 5 0 ≠ 0 ∧
    applyMove holeBoard 2 1 = some (true, setCell holeBoard 0 0 2, 1) := by
  refine ⟨by decide, by decide⟩

/-- Claim C3 (amended): for every board and every in-range column, if
*every* cell of the column is non-empty then `apply_move` returns failure
and leaves the board and the turn unchanged (under the gravity invariant
of reachable boards this is exactly the columns with a non-empty top
cell); if the column has an empty cell, the current player's mark goes
into the lowest empty cell, the turn switches, and the call succeeds. -/
theorem applyMove_column_spec : ∀ (b : Board) (turn : Int) (c : Nat), c < 7 →
    ((∀ r, r < 6 → cell b r c ≠ 0) →
      applyMove b turn ((c : Int) + 1) = some (false, b, turn)) ∧
    (∀ r, r < 6 → cell b r c = 0 → (∀ r', r' < r → cell b r' c ≠ 0) →
      applyMove b turn ((c : Int) + 1) = some (true, setCell b r c turn, 3 - turn)) := by
  intro b turn c hc
  constructor
  · intro hfull
    rw [applyMove_eval b turn c hc, dropFind_none b c hfull]
  · intro r hr h0 hlt
    rw [applyMove_eval b turn c hc, dropFind_some b c r hr h0 hlt]

/-- Witness for `applyMove_column_spec`: the full column 0 of
`fullColBoard` rejects the move and nothing changes; on the empty board
the move drops to the bottom cell and the turn switches. -/
theorem applyMove_column_spec_witness :
    applyMove fullColBoard 1 (((0 : Nat) : Int) + 1) = some (false, fullColBoard, 1) ∧
    applyMove emptyBoard 1 (((0 : Nat) : Int) + 1) =
      some (true, setCell emptyBoard 0 0 1, 2) := by
  constructor
  · exact (applyMove_column_spec fullColBoard 1 0 (by decide)).1 (by decide)
  · exact (applyMove_column_spec emptyBoard 1 0 (by decide)).2 0 (by decide) (by decide)
      (by intro r' hr'; omega)

/-- Claim C4: `check_win` reports exactly one of in-progress
`(False, None)`, a win `(True, winner)`, or a tie `(True, None)`; a tie
is reported only when every cell of the grid is occupied and no win line
exists; and a full board that contains a win line is reported as a win,
because the win checks run before the tie check. -/
theorem checkWin_outcome_spec : ∀ b : Board,
    (checkWin b = (false, none) ∨ checkWin b = (true, none) ∨
      ∃ w, checkWin b = (true, some w)) ∧
    (checkWin b = (true, none) →
      (∀ r, r < 6 → ∀ c, c < 7 → cell b r c ≠ 0) ∧ hasWinner b = false) ∧
    ((∀ r, r < 6 → ∀ c, c < 7 → cell b r c ≠ 0) → hasWinner b = true →
      ∃ w, checkWin b = (true, some w)) := by
  intro b
  have htie : checkTie b = true ↔ ∀ r, r < 6 → ∀ c, c < 7 → cell b r c ≠ 0 := by
    simp [checkTie, List.all_eq_true, List.mem_range, bne_iff_ne]
  unfold checkWin hasWinner result
  rcases hrows : checkRows b with _ | w
  · rcases hcols : checkCols b with _ | w
    · rcases hdiag : checkDiag b with _ | w
      · by_cases ht : checkTie b = true
        · rw [if_pos ht]
          refine ⟨Or.inr (Or.inl rfl), fun _ => ⟨htie.mp ht, rfl⟩, fun _ h => ?_⟩
          simp at h
        · rw [if_neg ht]
          exact ⟨Or.inl rfl, fun h => by simp at h, fun _ h => by simp at h⟩
      · exact ⟨Or.inr (Or.inr ⟨w, rfl⟩), fun h => by simp at h, fun _ _ => ⟨w, rfl⟩⟩
    · exact ⟨Or.inr (Or.inr ⟨w, rfl⟩), fun h => by simp at h, fun _ _ => ⟨w, rfl⟩⟩
  · exact ⟨Or.inr (Or.inr ⟨w, rfl⟩), fun h => by simp at h, fun _ _ => ⟨w, rfl⟩⟩

/-- Witness for `checkWin_outcome_spec`: the tie case on `tieBoard` (full
board, no win line) and the win-beats-tie case on the all-ones full
board. -/
theorem checkWin_outcome_spec_witness :
    ((∀ r, r < 6 → ∀ c, c < 7 → cell tieBoard r c ≠ 0) ∧
      hasWinner tieBoard = false) ∧
    ∃ w, checkWin onesBoard = (true, some w) := by
  constructor
  · exact (checkWin_outcome_spec tieBoard).2.1 (by decide)
  · exact (checkWin_outcome_spec onesBoard).2.2 (by decide) (by decide)

/-- Claim C10: `apply_move` treats its argument as 1-based and performs
no range validation; the argument 0 resolves through numpy's negative
indexing (`column - 1 = -1`) to the right-most column (index 6), so the
call behaves exactly like a call with column 7: it places the mark in
the lowest empty cell of column 6 and switches the turn. -/
theorem applyMove_column_zero_wraps : ∀ (b : Board) (turn : Int),
    applyMove b turn 0 = applyMove b turn 7 ∧
    (∀ r, r < 6 → cell b r 6 = 0 → (∀ r', r' < r → cell b r' 6 ≠ 0) →
      applyMove b turn 0 = some (true, setCell b r 6 turn, 3 - turn)) := by
  intro b turn
  have h07 : applyMove b turn 0 = applyMove b turn 7 := by
    simp only [applyMove]
    norm_num
  refine ⟨h07, fun r hr h0 hlt => ?_⟩
  have h7 : ((6 : Nat) : Int) + 1 = 7 := by norm_num
  rw [h07, ← h7, applyMove_eval b turn 6 (by omega), dropFind_some b 6 r hr h0 hlt]

/-- Witness for `applyMove_column_zero_wraps`: from the empty board,
column argument 0 drops player 1's mark into cell `(0, 6)`. -/
theorem applyMove_column_zero_wraps_witness :
    applyMove emptyBoard 1 0 = some (true, setCell emptyBoard 0 6 1, 2) :=
  (applyMove_column_zero_wraps emptyBoard 1).2 0 (by decide) (by decide)
    (by intro r' hr'; omega)

/-- Claim C6: when the iteration loop of `compute_move` ends, a root with
no children yields the sentinel `(-1, -1)`; otherwise `best_child` picks
the root child with the largest visit count, ties broken by
first-encountered order over the children sequence (every earlier child
has a strictly smaller count), and `compute_move` returns the `(row,
column)` of the single cell in which that child's board differs from the
root's. -/
theorem computeMove_extraction : ∀ (node : MNode),
    (node.children = [] → extractMove node = (-1, -1)) ∧
    (node.children ≠ [] → ∃ k, k < node.children.length ∧
      bestChild node.children = some (node.children.getD k default) ∧
      (∀ j, j < node.children.length →
        (node.children.getD j default).n ≤ (node.children.getD k default).n) ∧
      (∀ j, j < k →
        (node.children.getD j default).n < (node.children.getD k default).n)) ∧
    (∀ sel j i, bestChild node.children = some sel → j < 6 → i < 7 →
      cell sel.board j i ≠ cell node.board j i →
      (∀ j', j' < 6 → ∀ i', i' < 7 → ¬(j' = j ∧ i' = i) →
        cell sel.board j' i' = cell node.board j' i') →
      extractMove node = ((j : Int), (i : Int))) := by
  intro node
  refine ⟨fun hnil => ?_, fun hne => ?_, fun sel j i hbest hj hi hdiff hsame => ?_⟩
  · unfold extractMove
    rw [hnil]
    rfl
  · rcases hcs : node.children with _ | ⟨c, cs⟩
    · exact absurd hcs hne
    · obtain ⟨h1, h2, h3⟩ := bestChildAux_spec cs c
      rcases h3 with heq | ⟨k, hk, hkeq, hklt, hkstrict⟩
      · refine ⟨0, by simp, ?_, ?_, fun j hj => by omega⟩
        · show some (bestChildAux c cs) = _
          rw [heq]; rfl
        · intro j hj
          cases j with
          | zero => simp
          | succ j =>
            simp only [List.getD_cons_succ, List.getD_cons_zero]
            rw [← heq]
            exact h2 j (by simpa using hj)
      · refine ⟨k + 1, by simpa using hk, ?_, ?_, ?_⟩
        · show some (bestChildAux c cs) = _
          rw [hkeq]; rfl
        · intro j hj
          rw [show ((c :: cs).getD (k + 1) default) = cs.getD k default by rfl, ← hkeq]
          cases j with
          | zero => exact le_of_lt (by simpa using hklt)
          | succ j => simpa using h2 j (by simpa using hj)
        · intro j hj
          rw [show ((c :: cs).getD (k + 1) default) = cs.getD k default by rfl, ← hkeq]
          cases j with
          | zero => simpa using hklt
          | succ j => simpa using hkstrict j (by omega)
  · unfold extractMove
    rw [hbest]
    have hinner : ((List.range 7).findSome? fun i' =>
        if cell sel.board j i' ≠ cell node.board j i' then
          some ((j : Int), (i' : Int)) else none) = some ((j : Int), (i : Int)) := by
      refine findSome?_range_first _ 7 i _ hi (if_pos hdiff) fun k hk => ?_
      exact if_neg (by simp [hsame j hj k (by omega) (by omega)])
    have houter : ((List.range 6).findSome? fun j' => (List.range 7).findSome? fun i' =>
        if cell sel.board j' i' ≠ cell node.board j' i' then
          some ((j' : Int), (i' : Int)) else none) = some ((j : Int), (i : Int)) := by
      refine findSome?_range_first _ 6 j _ hj hinner fun k hk => ?_
      refine findSome?_eq_none_of _ _ fun x hx => ?_
      simp only [List.mem_range] at hx
      exact if_neg (by simp [hsame k (by omega) x hx (by omega)])
    dsimp only
    rw [houter]

/-- Witness for `computeMove_extraction`: a childless root returns the
sentinel, and after one expansion from the empty board the extracted
move is the changed cell `(0, 0)`. -/
theorem computeMove_extraction_witness :
    extractMove (mkNode emptyBoard 1) = (-1, -1) ∧
    extractMove (addChild (mkNode emptyBoard 1)) = ((0 : Int), (0 : Int)) := by
  constructor
  · exact (computeMove_extraction (mkNode emptyBoard 1)).1 rfl
  · exact (computeMove_extraction (addChild (mkNode emptyBoard 1))).2.2
      ((addChild (mkNode emptyBoard 1)).children.getD 0 default) 0 0 rfl
      (by decide) (by decide) (by decide) (by decide)

/-- Claim C8: one call of `add_child` either appends nothing and marks
the node expanded (exactly when every legal drop already duplicates an
existing child board), or appends a single child whose board differs from
the node's board in exactly one cell and from every existing child's
board; consequently the children of a node always have pairwise distinct
boards. -/
theorem addChild_expansion_spec : ∀ (node : MNode), boardWF node.board →
    node.producedBy ≠ 0 →
    (((addChild node).children = node.children ∧ (addChild node).expanded = true) ∨
      ∃ c j i, (addChild node).children = node.children ++ [c] ∧
        j < 6 ∧ i < 7 ∧
        cell c.board j i ≠ cell node.board j i ∧
        (∀ j' i', j' < 6 → i' < 7 → ¬(j' = j ∧ i' = i) →
          cell c.board j' i' = cell node.board j' i') ∧
        (∀ d ∈ node.children, c.board ≠ d.board)) ∧
    ((node.children.Pairwise fun a b => a.board ≠ b.board) →
      (addChild node).children.Pairwise fun a b => a.board ≠ b.board) := by
  intro node hWF hPB
  have main : ((addChild node).children = node.children ∧
      (addChild node).expanded = true) ∨
      ∃ c j i, (addChild node).children = node.children ++ [c] ∧
        j < 6 ∧ i < 7 ∧
        cell c.board j i ≠ cell node.board j i ∧
        (∀ j' i', j' < 6 → i' < 7 → ¬(j' = j ∧ i' = i) →
          cell c.board j' i' = cell node.board j' i') ∧
        (∀ d ∈ node.children, c.board ≠ d.board) := by
    unfold addChild
    by_cases hexp : node.expanded = true
    · rw [if_pos hexp]
      exact Or.inl ⟨rfl, hexp⟩
    · rw [if_neg hexp]
      cases hfs : (List.range 7).findSome? (fun i =>
        if cell node.board 5 i == 0 then
          match (List.range 6).find? (fun j => cell node.board j i == 0) with
          | some j =>
            let tmp := setCell node.board j i node.producedBy
            if node.children.any (fun ch => ch.board == tmp) then none
            else some tmp
          | none => none
        else none) with
      | none => exact Or.inl ⟨by simp, by simp⟩
      | some tmp =>
        obtain ⟨i, hi7, hfi⟩ := exists_of_findSome?_range _ 7 tmp hfs
        by_cases htop : (cell node.board 5 i == 0) = true
        · rw [if_pos htop] at hfi
          cases hfind : (List.range 6).find? (fun j => cell node.board j i == 0) with
          | none => rw [hfind] at hfi; simp at hfi
          | some j =>
            rw [hfind] at hfi
            have hj6 : j < 6 :=
              List.mem_range.mp (List.mem_of_find?_eq_some hfind)
            have hj0pre := List.find?_some hfind
            have hj0 : cell node.board j i = 0 := by simpa using hj0pre
            by_cases hdup : (node.children.any
                (fun ch => ch.board == setCell node.board j i node.producedBy)) = true
            · simp only [hdup, if_true] at hfi
              exact Option.noConfusion hfi
            · simp only [hdup] at hfi
              rw [if_neg (by simp [hdup])] at hfi
              have htmp : tmp = setCell node.board j i node.producedBy :=
                (Option.some_injective _ hfi).symm
              refine Or.inr ⟨mkNode tmp node.producedBy, j, i, by simp, hj6, hi7,
                ?_, ?_, ?_⟩
              · rw [show (mkNode tmp node.producedBy).board = tmp from rfl, htmp,
                  cell_setCell node.board node.producedBy j i hWF hj6 hi7 j i,
                  if_pos ⟨rfl, rfl⟩, hj0]
                exact hPB
              · intro j' i' hj' hi' hne
                rw [show (mkNode tmp node.producedBy).board = tmp from rfl, htmp,
                  cell_setCell node.board node.producedBy j i hWF hj6 hi7 j' i',
                  if_neg hne]
              · intro d hd
                have := List.any_eq_false.mp (Bool.not_eq_true _ ▸ hdup) d hd
                rw [show (mkNode tmp node.producedBy).board = tmp from rfl, htmp]
                intro hcontra
                exact this (by simp [hcontra])
        · rw [if_neg htop] at hfi
          simp at hfi
  refine ⟨main, fun hpw => ?_⟩
  rcases main with ⟨heq, _⟩ | ⟨c, j, i, heq, _, _, _, _, hdistinct⟩
  · rw [heq]; exact hpw
  · rw [heq]
    refine List.pairwise_append.mpr ⟨hpw, by simp, fun a ha b hb => ?_⟩
    rw [List.mem_singleton.mp hb]
    exact fun hcontra => hdistinct a ha hcontra.symm

/-!
## The visit-count invariant and reachable trees (claims C5, C7, C9) -/

lemma goodCountsB_eq (m : MNode) :
    goodCountsB m =
      (decide ((m.children.map MNode.n).sum ≤ m.n) && goodCountsL m.children) := by
  cases m
  simp [goodCountsB, MNode.children, MNode.n]

lemma goodCountsL_iff (cs : List MNode) :
    goodCountsL cs = true ↔ ∀ c ∈ cs, goodCountsB c = true := by
  induction cs with
  | nil => simp [goodCountsL]
  | cons c cs ih =>
    simp only [goodCountsL, Bool.and_eq_true, ih, List.mem_cons]
    constructor
    · rintro ⟨h1, h2⟩ x (rfl | hx)
      · exact h1
      · exact h2 x hx
    · intro h
      exact ⟨h c (Or.inl rfl), fun x hx => h x (Or.inr hx)⟩

lemma goodCountsB_default : goodCountsB (default : MNode) = true := by
  simp [default, goodCountsB, goodCountsL]

lemma goodCountsB_getD (cs : List MNode) (i : Nat) (h : goodCountsL cs = true) :
    goodCountsB (cs.getD i default) = true := by
  by_cases hi : i < cs.length
  · rw [List.getD_eq_getElem cs default hi]
    exact (goodCountsL_iff cs).mp h _ (List.getElem_mem hi)
  · rw [List.getD_eq_default cs default (by omega)]
    exact goodCountsB_default

lemma goodCountsL_set (cs : List MNode) (i : Nat) (c : MNode)
    (h : goodCountsL cs = true) (hc : goodCountsB c = true) :
    goodCountsL (cs.set i c) = true := by
  refine (goodCountsL_iff _).mpr fun x hx => ?_
  rcases List.mem_or_eq_of_mem_set hx with hmem | rfl
  · exact (goodCountsL_iff cs).mp h x hmem
  · exact hc

lemma good_mkNode (b : Board) (t : Int) : goodCountsB (mkNode b t) = true := by
  simp [mkNode, goodCountsB, goodCountsL]

/-- `add_child` leaves the node unchanged, marks it expanded, or appends
one fresh zero-visit child. -/
lemma addChild_shape (m : MNode) :
    addChild m = m ∨ addChild m = m.setExpandedTrue ∨
      ∃ tmp, addChild m = m.appendChild (mkNode tmp m.producedBy) := by
  unfold addChild
  by_cases hexp : m.expanded = true
  · rw [if_pos hexp]; exact Or.inl rfl
  · rw [if_neg hexp]
    cases (List.range 7).findSome? _ with
    | none => exact Or.inr (Or.inl rfl)
    | some tmp => exact Or.inr (Or.inr ⟨tmp, rfl⟩)

lemma addChild_n (m : MNode) : (addChild m).n = m.n := by
  rcases addChild_shape m with h | h | ⟨tmp, h⟩ <;> simp [h]

lemma addChild_board (m : MNode) : (addChild m).board = m.board := by
  rcases addChild_shape m with h | h | ⟨tmp, h⟩ <;> simp [h]

lemma good_addChild (m : MNode) (h : goodCountsB m = true) :
    goodCountsB (addChild m) = true := by
  rcases addChild_shape m with heq | heq | ⟨tmp, heq⟩
  · rw [heq]; exact h
  · rw [heq, goodCountsB_eq] at *
    simpa using h
  · rw [heq, goodCountsB_eq]
    rw [goodCountsB_eq] at h
    simp only [appendChild_children, appendChild_n, List.map_append, List.sum_append,
      Bool.and_eq_true, decide_eq_true_eq] at *
    obtain ⟨h1, h2⟩ := h
    refine ⟨by simpa [mkNode, MNode.n] using h1, ?_⟩
    rw [goodCountsL_iff]
    intro c hc
    rcases List.mem_append.mp hc with hc | hc
    · exact (goodCountsL_iff _).mp h2 c hc
    · rw [List.mem_singleton.mp hc]
      exact good_mkNode _ _

lemma n_updateAt_addChild (p : List Nat) : ∀ (m : MNode),
    (updateAt m p addChild).n = m.n := by
  induction p with
  | nil => intro m; exact addChild_n m
  | cons i p ih => intro m; simp [updateAt]

lemma good_updateAt_addChild (p : List Nat) : ∀ (m : MNode),
    goodCountsB m = true → goodCountsB (updateAt m p addChild) = true := by
  induction p with
  | nil => exact fun m h => good_addChild m h
  | cons i p ih =>
    intro m h
    show goodCountsB (m.setChild i (updateAt (m.children.getD i default) p addChild)) = true
    rw [goodCountsB_eq] at h ⊢
    simp only [setChild_children, setChild_n, Bool.and_eq_true, decide_eq_true_eq] at *
    obtain ⟨h1, h2⟩ := h
    have hgood := ih (m.children.getD i default) (goodCountsB_getD _ i h2)
    refine ⟨?_, goodCountsL_set _ _ _ h2 hgood⟩
    by_cases hi : i < m.children.length
    · have hsum := sum_map_set MNode.n m.children i
        (updateAt (m.children.getD i default) p addChild) hi
      rw [n_updateAt_addChild] at hsum
      omega
    · rw [List.set_eq_of_length_le (by omega)]
      exact h1

lemma bp_root_n (m : MNode) (p : List Nat) (w : Option Int)
    (acts : List (Nat × Nat)) (tbl : AmafTable) :
    (backprop m p w acts tbl).1.n = m.n + 1 := by
  cases p <;> simp [backprop]

lemma good_bp (p : List Nat) : ∀ (m : MNode) (w : Option Int)
    (acts : List (Nat × Nat)) (tbl : AmafTable),
    goodCountsB m = true → goodCountsB (backprop m p w acts tbl).1 = true := by
  induction p with
  | nil =>
    intro m w acts tbl h
    show goodCountsB (m.bpUpdate w) = true
    rw [goodCountsB_eq] at h ⊢
    simp only [bpUpdate_children, bpUpdate_n, Bool.and_eq_true, decide_eq_true_eq] at *
    exact ⟨by omega, h.2⟩
  | cons i p ih =>
    intro m w acts tbl h
    show goodCountsB (((m.setChild i
      (backprop (m.children.getD i default) p w acts tbl).1)).bpUpdate w) = true
    rw [goodCountsB_eq] at h ⊢
    simp only [bpUpdate_children, bpUpdate_n, setChild_children, setChild_n,
      Bool.and_eq_true, decide_eq_true_eq] at *
    obtain ⟨h1, h2⟩ := h
    have hgood := ih (m.children.getD i default) w acts tbl (goodCountsB_getD _ i h2)
    refine ⟨?_, goodCountsL_set _ _ _ h2 hgood⟩
    by_cases hi : i < m.children.length
    · have hsum := sum_map_set MNode.n m.children i
        (backprop (m.children.getD i default) p w acts tbl).1 hi
      rw [bp_root_n] at hsum
      omega
    · rw [List.set_eq_of_length_le (by omega)]
      omega

/-- Every tree the engine can build satisfies the visit-count
invariant. -/
lemma reach_good (m : MNode) (h : Reach m) : goodCountsB m = true := by
  induction h with
  | init b t => exact good_mkNode b t
  | expand m p _ ih => exact good_updateAt_addChild p m ih
  | bp m p w acts tbl _ ih => exact good_bp p m w acts tbl ih

lemma fullyExpanded_all (m : MNode) (h : fullyExpanded m = true) :
    ∀ c ∈ m.children, 0 < c.n := by
  unfold fullyExpanded at h
  by_cases hlen : (m.children.length == (m.board.getD 5 []).count 0) = true
  · rw [if_pos hlen] at h
    intro c hc
    simpa using (List.all_eq_true.mp h) c hc
  · rw [if_neg hlen] at h
    exact absurd h (by simp)

lemma n_le_sum_of_mem (c : MNode) (cs : List MNode) (h : c ∈ cs) :
    c.n ≤ (cs.map MNode.n).sum :=
  List.le_sum_of_mem (List.mem_map_of_mem MNode.n h)

lemma scored_safe (ch : MNode → Option Nat) (fuel : Nat) : ∀ (m : MNode),
    goodCountsB m = true →
    ∀ pr ∈ scoredPairs ch fuel m, 0 < pr.2.n ∧ 0 < pr.1.n := by
  induction fuel with
  | zero => intro m _ pr hpr; simp [scoredPairs] at hpr
  | succ fuel ih =>
    intro m hgood pr hpr
    unfold scoredPairs at hpr
    by_cases hfe : fullyExpanded m = true
    · rw [if_pos hfe] at hpr
      rcases List.mem_append.mp hpr with hpr | hpr
      · obtain ⟨c, hc, rfl⟩ := List.mem_map.mp hpr
        have hcn : 0 < c.n := fullyExpanded_all m hfe c hc
        refine ⟨show 0 < c.n from hcn, show 0 < m.n from ?_⟩
        rw [goodCountsB_eq] at hgood
        simp only [Bool.and_eq_true, decide_eq_true_eq] at hgood
        have hsum := n_le_sum_of_mem c m.children hc
        have hgood1 := hgood.1
        omega
      · rcases hch : ch m with _ | i
        · rw [hch] at hpr; simp at hpr
        · rw [hch] at hpr
          dsimp only at hpr
          by_cases hi : i < m.children.length
          · rw [if_pos hi] at hpr
            rw [goodCountsB_eq] at hgood
            simp only [Bool.and_eq_true, decide_eq_true_eq] at hgood
            exact ih (m.children.getD i default)
              (goodCountsB_getD _ i hgood.2) pr hpr
          · rw [if_neg hi] at hpr; simp at hpr
    · rw [if_neg hfe] at hpr
      simp at hpr

/-- Claim C5: during every tree walk started by `select`, the UCT(+AMAF)
score is only ever evaluated for a child with at least one visit under a
parent with at least one visit.  `scoredPairs` collects every
(parent, child) pair the scoring loop of `select_amaf` touches along the
walk, for an arbitrary chooser (covering the real floating-point argmax);
on every tree the engine can reach, each scored child and its parent have
positive visit counts — never-visited children are reached through
`pick_unvisited` instead, before any scoring. -/
theorem select_scores_only_visited (ch : MNode → Option Nat) (fuel : Nat)
    (t : MNode) (h : Reach t) :
    ∀ pr ∈ scoredPairs ch fuel t, 0 < pr.2.n ∧ 0 < pr.1.n :=
  scored_safe ch fuel t (reach_good t h)

/-- Witness for `select_scores_only_visited`: on a board with a single
legal column, one expansion plus one backpropagation produce a reachable,
fully-expanded root whose walk scores the (root, child) pair; both have a
visit. -/
theorem select_scores_only_visited_witness :
    0 < (sampleTree.children.getD 0 default).n ∧ 0 < sampleTree.n := by
  have hreach : Reach sampleTree :=
    Reach.bp _ [0] none [] [] (Reach.expand _ [] (Reach.init oneColBoard 1))
  have heval : scoredPairs (fun _ => none) 1 sampleTree =
      [(sampleTree, sampleTree.children.getD 0 default)] := by rfl
  have hmem : (sampleTree, sampleTree.children.getD 0 default) ∈
      scoredPairs (fun _ => none) 1 sampleTree := by
    rw [heval]
    exact List.mem_singleton_self _
  exact select_scores_only_visited (fun _ => none) 1 sampleTree hreach _ hmem

/-!
## Visit counts across one iteration (claim C7) -/

lemma selectLeafStep_tree (m : MNode) :
    (selectLeafStep m).1 = if m.terminal = true then m else addChild m := by
  unfold selectLeafStep
  by_cases ht : m.terminal = true
  · rw [if_pos ht, if_pos ht]
  · rw [if_neg ht, if_neg ht]
    by_cases hempty : (addChild m).children.isEmpty = true
    · rw [if_pos hempty]
    · rw [if_neg hempty]
      cases pickUnvisited (addChild m).children <;> rfl

lemma selectLeafStep_n (m : MNode) : (selectLeafStep m).1.n = m.n := by
  rw [selectLeafStep_tree]
  by_cases ht : m.terminal = true
  · rw [if_pos ht]
  · rw [if_neg ht]; exact addChild_n m

lemma select_n (ch : MNode → Option Nat) (fuel : Nat) : ∀ (m : MNode),
    (select ch fuel m).1.n = m.n := by
  induction fuel with
  | zero => intro m; rfl
  | succ fuel ih =>
    intro m
    unfold select
    by_cases hfe : fullyExpanded m = true
    · rw [if_pos hfe]
      cases ch m with
      | none => exact selectLeafStep_n m
      | some i =>
        dsimp only
        by_cases hi : i < m.children.length
        · rw [if_pos hi]; simp
        · rw [if_neg hi]; exact selectLeafStep_n m
    · rw [if_neg hfe]; exact selectLeafStep_n m

lemma mctsIter_n (ch : MNode → Option Nat) (oracle : Nat → Nat) (fuel : Nat)
    (st : MNode × AmafTable) (h : (mctsIter ch oracle fuel st).2 = true) :
    (mctsIter ch oracle fuel st).1.1.n = st.1.n + 1 := by
  rcases hsel : select ch fuel st.1 with ⟨tree, _ | p⟩
  · unfold mctsIter at h
    rw [hsel] at h
    simp at h
  · unfold mctsIter
    rw [hsel]
    dsimp only
    rw [bp_root_n]
    have := select_n ch fuel st.1
    rw [hsel] at this
    rw [this]

lemma mctsLoop_n (ch : MNode → Option Nat) (oracles : Nat → Nat → Nat)
    (fuel : Nat) : ∀ (k : Nat) (st st' : MNode × AmafTable),
    mctsLoop ch oracles fuel k st = (st', true) → st'.1.n = st.1.n + k := by
  intro k
  induction k with
  | zero =>
    intro st st' h
    unfold mctsLoop at h
    injection h with h1 _
    rw [← h1]
    omega
  | succ k ih =>
    intro st st' h
    unfold mctsLoop at h
    rcases hstep : mctsIter ch (oracles k) fuel st with ⟨st1, flag⟩
    rw [hstep] at h
    cases flag with
    | true =>
      have hn := mctsIter_n ch (oracles k) fuel st (by rw [hstep])
      rw [hstep] at hn
      have := ih _ _ h
      rw [this]
      dsimp only at hn
      omega
    | false =>
      injection h with _ h2
      exact Bool.noConfusion h2

lemma getNode_cons (m : MNode) (i : Nat) (p : List Nat) :
    getNode m (i :: p) = getNode (m.children.getD i default) p := rfl

lemma bp_prefix_n : ∀ (pre : List Nat) (rest : List Nat) (m : MNode)
    (w : Option Int) (acts : List (Nat × Nat)) (tbl : AmafTable),
    validPath m (pre ++ rest) = true →
    (getNode (backprop m (pre ++ rest) w acts tbl).1 pre).n =
      (getNode m pre).n + 1 := by
  intro pre
  induction pre with
  | nil =>
    intro rest m w acts tbl _
    show (backprop m rest w acts tbl).1.n = m.n + 1
    exact bp_root_n m rest w acts tbl
  | cons i pre ih =>
    intro rest m w acts tbl hvalid
    have hvalid' : (decide (i < m.children.length) &&
        validPath (m.children.getD i default) (pre ++ rest)) = true := hvalid
    rw [Bool.and_eq_true] at hvalid'
    obtain ⟨hi, hsub⟩ := hvalid'
    rw [decide_eq_true_eq] at hi
    show (getNode ((m.setChild i
      (backprop (m.children.getD i default) (pre ++ rest) w acts tbl).1).bpUpdate w)
        (i :: pre)).n = _
    rw [getNode_cons, getNode_cons]
    rw [show ((m.setChild i
      (backprop (m.children.getD i default) (pre ++ rest) w acts tbl).1).bpUpdate
        w).children = m.children.set i
          (backprop (m.children.getD i default) (pre ++ rest) w acts tbl).1 by simp]
    rw [getD_set_self _ i _ default hi]
    exact ih rest (m.children.getD i default) w acts tbl hsub

/-- Claim C7: after exactly `k` completed select→rollout→backpropagate
iterations on a fresh root, the root's visit count equals `k`; and every
backpropagation call increments the visit count by exactly one at each
node along the root-to-leaf path (the Python recursion walks the same
path leaf-to-root through the parent pointers and terminates at the
parentless root, which here is the outermost frame). -/
theorem root_visits_after_iterations :
    (∀ (ch : MNode → Option Nat) (oracles : Nat → Nat → Nat) (fuel k : Nat)
      (b : Board) (t : Int) (tbl : AmafTable) (st' : MNode × AmafTable),
      mctsLoop ch oracles fuel k (mkNode b t, tbl) = (st', true) →
      st'.1.n = k) ∧
    (∀ (m : MNode) (pre rest : List Nat) (w : Option Int)
      (acts : List (Nat × Nat)) (tbl : AmafTable),
      validPath m (pre ++ rest) = true →
      (getNode (backprop m (pre ++ rest) w acts tbl).1 pre).n =
        (getNode m pre).n + 1) := by
  constructor
  · intro ch oracles fuel k b t tbl st' h
    have := mctsLoop_n ch oracles fuel k (mkNode b t, tbl) st' h
    simpa using this
  · intro m pre rest w acts tbl h
    exact bp_prefix_n pre rest m w acts tbl h

/-- Witness for `root_visits_after_iterations`: one completed iteration
from a fresh empty-board root gives the root one visit, and a concrete
backpropagation along the one-child path of `sampleTree`'s parent
increments the child's count from 0 to 1. -/
theorem root_visits_after_iterations_witness :
    (∃ st', mctsLoop (fun _ => none) (fun _ _ => 0) 43 1
      (mkNode emptyBoard 1, []) = (st', true) ∧ st'.1.n = 1) ∧
    (getNode (backprop (updateAt (mkNode oneColBoard 1) [] addChild)
      ([0] ++ []) none [] []).1 [0]).n =
      (getNode (updateAt (mkNode oneColBoard 1) [] addChild) [0]).n + 1 := by
  constructor
  · obtain ⟨st', hst⟩ : ∃ st', mctsLoop (fun _ => none) (fun _ _ => 0) 43 1
        (mkNode emptyBoard 1, []) = (st', true) := ⟨_, rfl⟩
    exact ⟨st', hst,
      root_visits_after_iterations.1 (fun _ => none) (fun _ _ => 0) 43 1
        emptyBoard 1 [] st' hst⟩
  · exact root_visits_after_iterations.2
      (updateAt (mkNode oneColBoard 1) [] addChild) [0] [] none [] [] (by rfl)

/-!
## Frame preservation: the search never mutates stored boards (claim C9)

`Frame m m'` says that every node addressable in `m` is still addressable
in `m'` and carries the same board.  Every operation of one `compute_move`
iteration enjoys it: expansion only appends children and copies boards,
and backpropagation only touches the `q`/`n` counters. -/

def Frame (m m' : MNode) : Prop :=
  ∀ p, validPath m p = true →
    validPath m' p = true ∧ (getNode m' p).board = (getNode m p).board

lemma frame_refl (m : MNode) : Frame m m := fun _ hp => ⟨hp, rfl⟩

lemma frame_comp (m m1 m2 : MNode) (h1 : Frame m m1) (h2 : Frame m1 m2) :
    Frame m m2 := by
  intro p hp
  obtain ⟨hv1, hb1⟩ := h1 p hp
  obtain ⟨hv2, hb2⟩ := h2 p hv1
  exact ⟨hv2, hb2.trans hb1⟩

lemma frame_ext (m m' : MNode) (hb : m'.board = m.board)
    (hext : ∀ i, i < m.children.length → i < m'.children.length ∧
      m'.children.getD i default = m.children.getD i default) :
    Frame m m' := by
  intro p hp
  cases p with
  | nil => exact ⟨rfl, hb⟩
  | cons i p' =>
    have hp' : (decide (i < m.children.length) &&
        validPath (m.children.getD i default) p') = true := hp
    rw [Bool.and_eq_true, decide_eq_true_eq] at hp'
    obtain ⟨hi, hsub⟩ := hp'
    obtain ⟨hi', heq⟩ := hext i hi
    constructor
    · show (decide (i < m'.children.length) &&
        validPath (m'.children.getD i default) p') = true
      rw [Bool.and_eq_true, decide_eq_true_eq, heq]
      exact ⟨hi', hsub⟩
    · show (getNode (m'.children.getD i default) p').board =
        (getNode (m.children.getD i default) p').board
      rw [heq]

lemma frame_addChild (m : MNode) : Frame m (addChild m) := by
  rcases addChild_shape m with heq | heq | ⟨tmp, heq⟩
  · rw [heq]; exact frame_refl m
  · rw [heq]
    exact frame_ext _ _ (by simp) fun i hi => ⟨by simpa using hi, by simp⟩
  · rw [heq]
    refine frame_ext _ _ (by simp) fun i hi => ⟨by simp; omega, ?_⟩
    rw [appendChild_children]
    exact getD_append_left _ _ i default hi

lemma frame_bpUpdate (m : MNode) (w : Option Int) : Frame m (m.bpUpdate w) :=
  frame_ext _ _ (by simp) fun i hi => ⟨by simpa using hi, by simp⟩

lemma frame_setChild (m : MNode) (j : Nat) (c' : MNode)
    (hrec : Frame (m.children.getD j default) c') :
    Frame m (m.setChild j c') := by
  intro p hp
  cases p with
  | nil => exact ⟨rfl, show (m.setChild j c').board = m.board by simp⟩
  | cons i p' =>
    have hp' : (decide (i < m.children.length) &&
        validPath (m.children.getD i default) p') = true := hp
    rw [Bool.and_eq_true, decide_eq_true_eq] at hp'
    obtain ⟨hi, hsub⟩ := hp'
    by_cases hij : j = i
    · subst hij
      obtain ⟨hv, hbd⟩ := hrec p' hsub
      constructor
      · show (decide (j < (m.setChild j c').children.length) &&
          validPath ((m.setChild j c').children.getD j default) p') = true
        rw [Bool.and_eq_true, decide_eq_true_eq]
        refine ⟨by simpa using hi, ?_⟩
        rw [setChild_children, getD_set_self _ j _ default hi]
        exact hv
      · show (getNode ((m.setChild j c').children.getD j default) p').board =
          (getNode (m.children.getD j default) p').board
        rw [setChild_children, getD_set_self _ j _ default hi]
        exact hbd
    · constructor
      · show (decide (i < (m.setChild j c').children.length) &&
          validPath ((m.setChild j c').children.getD i default) p') = true
        rw [Bool.and_eq_true, decide_eq_true_eq]
        refine ⟨by simpa using hi, ?_⟩
        rw [setChild_children, getD_set_ne _ j i _ default hij]
        exact hsub
      · show (getNode ((m.setChild j c').children.getD i default) p').board =
          (getNode (m.children.getD i default) p').board
        rw [setChild_children, getD_set_ne _ j i _ default hij]

lemma frame_backprop (q : List Nat) : ∀ (m : MNode) (w : Option Int)
    (acts : List (Nat × Nat)) (tbl : AmafTable),
    Frame m (backprop m q w acts tbl).1 := by
  induction q with
  | nil => exact fun m w acts tbl => frame_bpUpdate m w
  | cons j q ih =>
    intro m w acts tbl
    show Frame m ((m.setChild j
      (backprop (m.children.getD j default) q w acts tbl).1).bpUpdate w)
    exact frame_comp _ _ _
      (frame_setChild m j _ (ih (m.children.getD j default) w acts tbl))
      (frame_bpUpdate _ w)

lemma frame_selectLeafStep (m : MNode) : Frame m (selectLeafStep m).1 := by
  rw [selectLeafStep_tree]
  by_cases ht : m.terminal = true
  · rw [if_pos ht]; exact frame_refl m
  · rw [if_neg ht]; exact frame_addChild m

lemma frame_select (ch : MNode → Option Nat) (fuel : Nat) : ∀ (m : MNode),
    Frame m (select ch fuel m).1 := by
  induction fuel with
  | zero => exact fun m => frame_refl m
  | succ fuel ih =>
    intro m
    unfold select
    by_cases hfe : fullyExpanded m = true
    · rw [if_pos hfe]
      cases ch m with
      | none => exact frame_selectLeafStep m
      | some i =>
        dsimp only
        by_cases hi : i < m.children.length
        · rw [if_pos hi]
          exact frame_setChild m i _ (ih (m.children.getD i default))
        · rw [if_neg hi]
          exact frame_selectLeafStep m
    · rw [if_neg hfe]
      exact frame_selectLeafStep m

lemma frame_mctsIter (ch : MNode → Option Nat) (oracle : Nat → Nat)
    (fuel : Nat) (st : MNode × AmafTable) :
    Frame st.1 (mctsIter ch oracle fuel st).1.1 := by
  have hsel := frame_select ch fuel st.1
  rcases hs : select ch fuel st.1 with ⟨tree, _ | p⟩
  · unfold mctsIter
    rw [hs]
    rw [hs] at hsel
    exact hsel
  · unfold mctsIter
    rw [hs]
    rw [hs] at hsel
    exact frame_comp _ _ _ hsel (frame_backprop p tree _ _ st.2)

lemma frame_mctsLoop (ch : MNode → Option Nat) (oracles : Nat → Nat → Nat)
    (fuel : Nat) : ∀ (k : Nat) (st : MNode × AmafTable),
    Frame st.1 (mctsLoop ch oracles fuel k st).1.1 := by
  intro k
  induction k with
  | zero => exact fun st => frame_refl st.1
  | succ k ih =>
    intro st
    have hiter := frame_mctsIter ch (oracles k) fuel st
    unfold mctsLoop
    rcases hstep : mctsIter ch (oracles k) fuel st with ⟨st1, flag⟩
    rw [hstep] at hiter
    cases flag with
    | true => exact frame_comp _ _ _ hiter (ih st1)
    | false => exact hiter

/-- Claim C9: `compute_move` never mutates the board stored in the node
it is given, nor the board of any node of the tree: after any number of
iterations, every node addressable at entry is still addressable and
holds a cell-for-cell equal board — in particular the root's board is
unchanged.  (In the source this holds because rollout and expansion only
write to fresh `board.copy()` arrays.) -/
theorem computeMove_preserves_boards (ch : MNode → Option Nat)
    (oracles : Nat → Nat → Nat) (fuel k : Nat) (st : MNode × AmafTable)
    (p : List Nat) (hp : validPath st.1 p = true) :
    validPath (mctsLoop ch oracles fuel k st).1.1 p = true ∧
    (getNode (mctsLoop ch oracles fuel k st).1.1 p).board =
      (getNode st.1 p).board :=
  frame_mctsLoop ch oracles fuel k st p hp

/-- Witness for `computeMove_preserves_boards`: one iteration from the
empty-board root leaves the root's board untouched. -/
theorem computeMove_preserves_boards_witness :
    (getNode (mctsLoop (fun _ => none) (fun _ _ => 0) 43 1
      (mkNode emptyBoard 1, [])).1.1 []).board =
      (getNode (mkNode emptyBoard 1) []).board :=
  (computeMove_preserves_boards (fun _ => none) (fun _ _ => 0) 43 1
    (mkNode emptyBoard 1, []) [] rfl).2

/-- Witness for `addChild_expansion_spec`: the root built from the empty
board satisfies both hypotheses. -/
theorem addChild_expansion_spec_witness :
    (((addChild (mkNode emptyBoard 1)).children = (mkNode emptyBoard 1).children ∧
      (addChild (mkNode emptyBoard 1)).expanded = true) ∨
      ∃ c j i,
        (addChild (mkNode emptyBoard 1)).children =
          (mkNode emptyBoard 1).children ++ [c] ∧
        j < 6 ∧ i < 7 ∧
        cell c.board j i ≠ cell (mkNode emptyBoard 1).board j i ∧
        (∀ j' i', j' < 6 → i' < 7 → ¬(j' = j ∧ i' = i) →
          cell c.board j' i' = cell (mkNode emptyBoard 1).board j' i') ∧
        (∀ d ∈ (mkNode emptyBoard 1).children, c.board ≠ d.board)) ∧
    (((mkNode emptyBoard 1).children.Pairwise fun a b => a.board ≠ b.board) →
      (addChild (mkNode emptyBoard 1)).children.Pairwise
        fun a b => a.board ≠ b.board) :=
  addChild_expansion_spec (mkNode emptyBoard 1) (by decide) (by decide)

end Connect4
